import Mathlib

set_option maxHeartbeats 1000000

/-! Verification of the GDB controller engine in `ddd_clone/gdb/gdb_controller.py`.
Lines of text are modelled as `List Char`.  Python string/regex helpers used by the
controller are embedded first, then the controller's own functions, then the
theorems.  Whitespace and the regex class `\d` are modelled over the ASCII range. -/

namespace DDDClone

/-- Whitespace stripped by Python `str.strip()` and matched by the regex class
`\s`, restricted to the ASCII range. -/
def isPySpace (c : Char) : Bool :=
  c = ' ' ∨ c = '\t' ∨ c = '\n' ∨ c = '\r' ∨ c = '\x0b' ∨ c = '\x0c'

/-- Python `str.strip()`: drop leading and trailing whitespace. -/
def pyStrip (s : List Char) : List Char :=
  ((s.dropWhile isPySpace).reverse.dropWhile isPySpace).reverse

/-- Numeric value of an ASCII digit character (Python `int` on a digit). -/
def digVal (c : Char) : Nat := c.toNat - 48

/-- Python `int(s)` on a string of decimal digits. -/
def strToNat (s : List Char) : Nat := s.foldl (fun a c => 10 * a + digVal c) 0

/-- ASCII digit character of a value below ten. -/
def digitChar (n : Nat) : Char := Char.ofNat (n + 48)

/-- Decimal digit string of a natural number, most significant digit first
(Python `str(token)`). -/
def natChars (n : Nat) : List Char :=
  if n < 10 then [digitChar n]
  else natChars (n / 10) ++ [digitChar (n % 10)]
termination_by n
decreasing_by
  exact Nat.div_lt_self (by omega) (by omega)

/-- The four MI kind bytes accepted by the tokenized-line regex `[\^*=+]`. -/
def kindChars : List Char := ['^', '*', '=', '+']

/-- The literal prompt line recognized by `_parse_mi_output`. -/
def gdbPromptChars : List Char := "(gdb)".data

/-- Result of `_parse_mi_output`: the `(gdb)` prompt or a tokenized record. -/
inductive MIRecord where
  | prompt
  | tokenized (token : Nat) (kind : Char) (payload : List Char)
  deriving DecidableEq

/-- Embedding of `GDBController._parse_mi_output`: strip the line, recognize the
prompt, otherwise match `^(\d+)([\^*=+])(.*)$` (the dot does not cross a newline,
so a payload holding a newline defeats the match). -/
def parse_mi_output (raw : List Char) : Option MIRecord :=
  if pyStrip raw = [] then none
  else if pyStrip raw = gdbPromptChars then some .prompt
  else
    match (pyStrip raw).dropWhile Char.isDigit with
    | k :: payload =>
      if (pyStrip raw).takeWhile Char.isDigit ≠ [] ∧ k ∈ kindChars ∧
          payload.contains '\n' = false then
        some (.tokenized (strToNat ((pyStrip raw).takeWhile Char.isDigit)) k payload)
      else none
    | [] => none

/-- Wire format of a tokenized line: the token digits, then the kind byte, then
the payload, as used in the round-trip property of the specification. -/
def formatMi (token : Nat) (kind : Char) (payload : List Char) : List Char :=
  natChars token ++ kind :: payload

/-- Debuggee status values stored in `current_state['state']`. -/
inductive Status where
  | disconnected | connected | running | stopped | exited
  deriving DecidableEq

/-- The `current_state` dictionary of the controller. -/
structure DebugState where
  state : Status
  file : Option (List Char)
  line : Option Nat
  function : Option (List Char)
  deriving DecidableEq

def nameKey : List Char := "name".data

def valueKey : List Char := "value".data

def typeKey : List Char := "type".data

def fileKeyQ : List Char := "file=\"".data

def lineKeyQ : List Char := "line=\"".data

def funcKeyQ : List Char := "func=\"".data

def stoppedMarker : List Char := "stopped".data

def runningMarker : List Char := "running".data

def reasonKeyQ : List Char := "reason=\"".data

/-- The alternatives of the exit-reason regex
`reason="(exited|exit-normal|exited-normally|exited-signalled)"`. -/
def exitReasonStrs : List (List Char) :=
  ["exited".data, "exit-normal".data, "exited-normally".data, "exited-signalled".data]

/-- Substring test: the pattern is a prefix of some suffix of the string. -/
def hasInfix (pat : List Char) : List Char → Bool
  | [] => pat.isEmpty
  | c :: t => pat.isPrefixOf (c :: t) || hasInfix pat t

/-- Embedding of `re.search(exit_pattern, output) is not None`: some alternative,
wrapped in `reason="..."`, occurs as a substring of the line. -/
def containsExitReason (out : List Char) : Bool :=
  exitReasonStrs.any (fun rs => hasInfix (reasonKeyQ ++ rs ++ ['"']) out)

/-- Embedding of `re.search(pat + '([^"]+)"', out)` scanning position by position:
at a position where the literal pattern matches, take the longest run of
non-quote characters; it must be nonempty and followed by a closing quote,
otherwise the scan resumes one position further right. -/
def searchQuotedVal (pat : List Char) : List Char → Option (List Char)
  | [] => none
  | c :: t =>
    if pat.isPrefixOf (c :: t) then
      let after := (c :: t).drop pat.length
      let v := after.takeWhile (fun x => x ≠ '"')
      match after.dropWhile (fun x => x ≠ '"') with
      | '"' :: _ => if v = [] then searchQuotedVal pat t else some v
      | _ => searchQuotedVal pat t
    else searchQuotedVal pat t

/-- Embedding of `re.search(pat + '(\d+)"', out)`, as `searchQuotedVal` but the
value is a nonempty digit run that must be followed directly by the quote. -/
def searchDigitsVal (pat : List Char) : List Char → Option (List Char)
  | [] => none
  | c :: t =>
    if pat.isPrefixOf (c :: t) then
      let after := (c :: t).drop pat.length
      let v := after.takeWhile Char.isDigit
      match after.dropWhile Char.isDigit with
      | '"' :: _ => if v = [] then searchDigitsVal pat t else some v
      | _ => searchDigitsVal pat t
    else searchDigitsVal pat t

/-- Embedding of `GDBController._handle_stopped_state`: an exit reason yields the
exited state with cleared location; otherwise the state becomes stopped and each
of file/line/func is overwritten only when its field is found in the line. -/
def handle_stopped_state (st : DebugState) (out : List Char) : DebugState :=
  if containsExitReason out then
    { state := .exited, file := none, line := none, function := none }
  else
    { state := .stopped,
      file := match searchQuotedVal fileKeyQ out with
              | some v => some v
              | none => st.file,
      line := match searchDigitsVal lineKeyQ out with
              | some v => some (strToNat v)
              | none => st.line,
      function := match searchQuotedVal funcKeyQ out with
                  | some v => some v
                  | none => st.function }

/-- Embedding of the state-updating part of `GDBController._process_output`: a
line parsed as a tokenized record or prompt leaves the debuggee state unchanged
(it is routed to a response queue instead); otherwise the exit check runs first,
then the stopped marker, then the running marker. -/
def process_output (st : DebugState) (out : List Char) : DebugState :=
  match parse_mi_output out with
  | some _ => st
  | none =>
    if containsExitReason out then
      { state := .exited, file := none, line := none, function := none }
    else if hasInfix stoppedMarker out then handle_stopped_state st out
    else if hasInfix runningMarker out then { st with state := .running }
    else st

/-- A parsed MI dictionary, Python `Dict[str, str]` with insertion order. -/
abbrev VarDict := List (List Char × List Char)

/-- Python dict lookup on an insertion-ordered association list. -/
def aget {α : Type} : List (List Char × α) → List Char → Option α
  | [], _ => none
  | p :: rest, k => if p.1 = k then some p.2 else aget rest k

/-- Python dict assignment: replace the value in place when the key exists,
append the pair otherwise. -/
def aset {α : Type} : List (List Char × α) → List Char → α → List (List Char × α)
  | [], k, v => [(k, v)]
  | p :: rest, k, v => if p.1 = k then (k, v) :: rest else p :: aset rest k v

def lbrace : Char := Char.ofNat 123

def rbrace : Char := Char.ofNat 125

/-- Embedding of the manual brace scan in `_parse_variables_response`: walk the
string with a signed depth counter, remember (`some acc`) the characters seen
since the opening brace at depth zero, and emit them when the matching closing
brace returns the depth to zero. -/
def braceScan : List Char → Int → Option (List Char) → List (List Char)
  | [], _, _ => []
  | c :: t, depth, cur =>
    if c = lbrace then
      if depth = 0 then braceScan t (depth + 1) (some [])
      else braceScan t (depth + 1) (cur.map (fun l => l ++ [c]))
    else if c = rbrace then
      if depth - 1 = 0 then
        match cur with
        | some l => l :: braceScan t (depth - 1) none
        | none => braceScan t (depth - 1) none
      else braceScan t (depth - 1) (cur.map (fun l => l ++ [c]))
    else braceScan t depth (cur.map (fun l => l ++ [c]))

/-- Top-level `{...}` entries of the variables array, braces excluded. -/
def braceEntries (s : List Char) : List (List Char) := braceScan s 0 none

/-- Characters allowed in a key by the pair regex class `[^=",\s]`. -/
def isKeyChar (c : Char) : Bool :=
  !(c = '=' || c = '"' || c = ',' || isPySpace c)

def variablesKey : List Char := "variables=[".data

def dataKey : List Char := "data=[".data

def doneLit : List Char := "done".data

def hexMark : List Char := "0x".data

/-- One attempted match of the pair regex `(?:,|^)\s*([^=",\s]+?)="([^"]*)"` at
the current position: a comma (or the start of the string), optional whitespace,
a nonempty key run, then `="`, the value up to the next quote, and the closing
quote.  Returns the pair together with the rest of the string. -/
def matchPairAt (s : List Char) (atStart : Bool) :
    Option ((List Char × List Char) × List Char) :=
  let afterSep : Option (List Char) :=
    match s with
    | ',' :: t => some t
    | _ => if atStart then some s else none
  match afterSep with
  | none => none
  | some t =>
    let t2 := t.dropWhile isPySpace
    let key := t2.takeWhile isKeyChar
    match t2.dropWhile isKeyChar with
    | '=' :: '"' :: rest =>
      if key = [] then none
      else
        let v := rest.takeWhile (fun c => c ≠ '"')
        match rest.dropWhile (fun c => c ≠ '"') with
        | '"' :: rem => some ((key, v), rem)
        | _ => none
    | _ => none

/-- Embedding of `re.findall` for the pair regex: leftmost nonoverlapping
matches, advancing one character when no match starts at the current position.
The fuel argument only bounds the recursion; every step consumes at least one
character, so `length + 1` units suffice. -/
def findPairsFuel : Nat → List Char → Bool → List (List Char × List Char)
  | 0, _, _ => []
  | fuel + 1, s, atStart =>
    match matchPairAt s atStart with
    | some (kv, rest) => kv :: findPairsFuel fuel rest false
    | none =>
      match s with
      | [] => []
      | _ :: t => findPairsFuel fuel t false

def findPairs (s : List Char) : List (List Char × List Char) :=
  findPairsFuel (s.length + 1) s true

/-- Longest prefix of the string ending just before its last `]`, the group of
the greedy regex `variables=\[(.*)\]` once the start is fixed. -/
def upToLastRBracket (s : List Char) : Option (List Char) :=
  match s.reverse.dropWhile (fun c => c ≠ ']') with
  | ']' :: rest => some rest.reverse
  | _ => none

/-- Embedding of `re.search(r'variables=\[(.*)\]', content)`: at the leftmost
position where the literal `variables=[` matches, the greedy group runs to the
last `]` in the rest of the line (the dot does not cross a newline); when no
closing bracket follows, the scan resumes one position to the right. -/
def searchVarsGroup : List Char → Option (List Char)
  | [] => none
  | c :: t =>
    if variablesKey.isPrefixOf (c :: t) then
      match upToLastRBracket
          (((c :: t).drop variablesKey.length).takeWhile (fun x => x ≠ '\n')) with
      | some g => some g
      | none => searchVarsGroup t
    else searchVarsGroup t

/-- Embedding of `GDBController._parse_variables_response`: locate the variables
array, split it into top-level brace entries, skip entries that strip to
nothing, build each dictionary from the key/value pairs found in the entry, and
keep the nonempty dictionaries. -/
def parse_variables_response (content : List Char) : List VarDict :=
  match searchVarsGroup content with
  | none => []
  | some varsStr =>
    (braceEntries varsStr).filterMap (fun entry =>
      if pyStrip entry = [] then none
      else
        let d := (findPairs entry).foldl (fun d kv => aset d kv.1 kv.2) []
        if d = [] then none else some d)

/-- Name field of a parsed variable record, `v.get('name')`. -/
def varName (v : VarDict) : Option (List Char) := aget v nameKey

/-- Merge step applied to the record of one name: `value` is overwritten when
the all-values record carries one, then every key other than name/value/type is
copied over, in the insertion order of the all-values record. -/
def updateWithValue (base vv : VarDict) : VarDict :=
  let base1 :=
    match aget vv valueKey with
    | some v => aset base valueKey v
    | none => base
  vv.foldl
    (fun b p =>
      if p.1 = nameKey ∨ p.1 = valueKey ∨ p.1 = typeKey then b else aset b p.1 p.2)
    base1

/-- Processing of one all-values record in `get_variables`: a record whose name
is missing or not registered in the map is skipped, otherwise the mapped record
is updated in place. -/
def apply_all_values (m : List (List Char × VarDict)) (vv : VarDict) :
    List (List Char × VarDict) :=
  match varName vv with
  | none => m
  | some n =>
    match aget m n with
    | none => m
    | some base => aset m n (updateWithValue base vv)

/-- The dict comprehension `{v['name']: v for v in variables_with_types}`; `none`
models the `KeyError` raised when a record has no name field. -/
def build_var_map (ts : List VarDict) : Option (List (List Char × VarDict)) :=
  ts.foldlM (fun m v => (varName v).map (fun n => aset m n v)) []

/-- The two-pass merge of `GDBController.get_variables` applied to the decoded
records of the `--simple-values` pass (`ts`) and the `--all-values` pass (`vs`):
build the name map from the first pass, apply every record of the second pass,
and return the mapped records in map order (`list(var_map.values())`). -/
def merge_variables (ts vs : List VarDict) : Option (List VarDict) :=
  (build_var_map ts).map (fun m => (vs.foldl apply_all_values m).map (fun p => p.2))

/-- Embedding of `re.search(r'data=\[([^\]]*)\]', content)`: at the leftmost
position where `data=[` matches, the group is the run of non-bracket characters,
which must be closed by a `]`. -/
def searchDataGroup : List Char → Option (List Char)
  | [] => none
  | c :: t =>
    if dataKey.isPrefixOf (c :: t) then
      let after := (c :: t).drop dataKey.length
      match after.dropWhile (fun x => x ≠ ']') with
      | ']' :: _ => some (after.takeWhile (fun x => x ≠ ']'))
      | _ => searchDataGroup t
    else searchDataGroup t

/-- Embedding of `re.findall(r'"([^"]*)"', s)`: pair up quotes from the left and
collect the enclosed runs. -/
def quotedScan : List Char → Option (List Char) → List (List Char)
  | [], _ => []
  | c :: t, none => if c = '"' then quotedScan t (some []) else quotedScan t none
  | c :: t, some acc =>
    if c = '"' then acc :: quotedScan t none else quotedScan t (some (acc ++ [c]))

def quotedStrings (s : List Char) : List (List Char) := quotedScan s none

/-- Value of one hexadecimal digit character. -/
def hexVal (c : Char) : Option Nat :=
  if c.isDigit then some (c.toNat - 48)
  else if 'a' ≤ c ∧ c ≤ 'f' then some (c.toNat - 87)
  else if 'A' ≤ c ∧ c ≤ 'F' then some (c.toNat - 55)
  else none

/-- Continuation of Python `int(s, 16)` after at least one digit was read: more
digits, a single underscore between digits, or trailing whitespace only. -/
def hexTailAcc : Nat → List Char → Option Nat
  | acc, [] => some acc
  | acc, c :: t =>
    match hexVal c with
    | some d => hexTailAcc (16 * acc + d) t
    | none =>
      if c = '_' then
        match t with
        | c2 :: t2 =>
          match hexVal c2 with
          | some d => hexTailAcc (16 * acc + d) t2
          | none => none
        | [] => none
      else if isPySpace c then
        if t.all isPySpace then some acc else none
      else none

/-- Python `int('0x' + s, 16)` on the part after the prefix: one optional
underscore directly after the prefix, then at least one digit. -/
def pyIntHexTail : List Char → Option Nat
  | [] => none
  | '_' :: c :: t =>
    match hexVal c with
    | some d => hexTailAcc d t
    | none => none
  | c :: t =>
    match hexVal c with
    | some d => hexTailAcc d t
    | none => none

/-- One entry of the data list in `read_memory`: kept only when it starts with
`0x` and the whole entry parses as a base-16 integer, skipped otherwise. -/
def decodeHexEntry (s : List Char) : Option Nat :=
  if hexMark.isPrefixOf s then pyIntHexTail (s.drop 2) else none

/-- Reply processing of `GDBController.read_memory`: require the result kind `^`
and a payload starting with `done`, locate the data list, decode its quoted
entries, and build the byte string.  The final guard models `bytes(...)`
raising when a decoded value does not fit in a byte. -/
def read_memory_decode (resultType : Char) (content : List Char) : Option (List Nat) :=
  if resultType = '^' ∧ doneLit.isPrefixOf content then
    match searchDataGroup content with
    | none => none
    | some ds =>
      let bs := (quotedStrings ds).filterMap decodeHexEntry
      if bs.all (fun b => b < 256) then some bs else none
  else none

/-- Error taxonomy of the synchronous command path. -/
inductive GDBErr where
  | connectionError | commandError | timeoutError
  deriving DecidableEq

/-- Session-level mutable state of the controller: the process handle (`none`
when absent, `some alive` otherwise), the token counter, the keys of
`response_queues`, and `current_state`. -/
structure SessionState where
  gdbProcess : Option Bool
  tokenCounter : Nat
  responseQueues : List Nat
  debug : DebugState
  deriving DecidableEq

/-- The liveness test `self.gdb_process and self.gdb_process.poll() is None`. -/
def processAlive (st : SessionState) : Bool := st.gdbProcess = some true

/-- Embedding of `GDBController._get_next_token`. -/
def get_next_token (st : SessionState) : Nat × SessionState :=
  (st.tokenCounter + 1, { st with tokenCounter := st.tokenCounter + 1 })

/-- Session state after `n` calls of the token allocator. -/
def nthCallState (st : SessionState) : Nat → SessionState
  | 0 => st
  | n + 1 => (get_next_token (nthCallState st n)).2

/-- Token returned by call number `n` (counting from zero) of the allocator. -/
def tokenAt (st : SessionState) (n : Nat) : Nat :=
  (get_next_token (nthCallState st n)).1

/-- Registration of a token key in `response_queues`. -/
def registerToken (qs : List Nat) (t : Nat) : List Nat :=
  if qs.contains t then qs else t :: qs

/-- The cleanup `if token in self.response_queues: del self.response_queues[token]`. -/
def removeToken (qs : List Nat) (t : Nat) : List Nat :=
  qs.filter (fun x => x ≠ t)

/-- Embedding of `GDBController.send_mi_command_sync`.  The environment is
summarized by two oracles: `writeOk` tells whether `send_command` succeeds, and
`reply` holds the correlated reply when one arrives within the timeout.  The
result carries the Python return or raised error, the final session state, and
the list of command lines handed to `send_command`.  The `finally` block is the
shared `removeToken` in every exit path past registration. -/
def send_mi_command_sync (st : SessionState) (cmd : List Char) (writeOk : Bool)
    (reply : Option (Char × List Char)) :
    Except GDBErr (Char × List Char) × SessionState × List (List Char) :=
  if processAlive st then
    let token := st.tokenCounter + 1
    let registered : SessionState :=
      { st with tokenCounter := token,
                responseQueues := registerToken st.responseQueues token }
    let final : SessionState :=
      { registered with responseQueues := removeToken registered.responseQueues token }
    let written := [natChars token ++ cmd]
    if writeOk then
      match reply with
      | some r => (.ok r, final, written)
      | none => (.error .timeoutError, final, written)
    else (.error .commandError, final, written)
  else (.error .connectionError, st, [])

/-- Embedding of `GDBController.shutdown`.  The graceful path (`-gdb-exit`,
terminate, bounded wait) and the exception path (log, kill) are both covered by
`gracefulFails`; the `finally` block clears the handle on either path, and the
state is forced to disconnected afterwards.  Totality of this function is the
never-raises guarantee: every failure of the modelled fallible operations is
caught by the `except` clause. -/
def shutdown (st : SessionState) (gracefulFails : Bool) : SessionState :=
  let cleared :=
    match st.gdbProcess with
    | none => st
    | some _ =>
      if gracefulFails then { st with gdbProcess := none }
      else { st with gdbProcess := none }
  { cleared with debug := { cleared.debug with state := .disconnected } }

/-! Helper lemmas about the string and digit embeddings. -/

theorem natChars_eq (n : Nat) :
    natChars n = if n < 10 then [digitChar n]
      else natChars (n / 10) ++ [digitChar (n % 10)] := by
  rw [natChars]

theorem natChars_ne_nil (n : Nat) : natChars n ≠ [] := by
  rw [natChars_eq]
  split <;> simp

theorem digVal_digitChar (d : Nat) (h : d < 10) : digVal (digitChar d) = d := by
  interval_cases d <;> decide

theorem digitChar_isDigit (d : Nat) (h : d < 10) : (digitChar d).isDigit = true := by
  interval_cases d <;> decide

theorem natChars_all_digits (n : Nat) : ∀ c ∈ natChars n, c.isDigit = true := by
  induction n using Nat.strong_induction_on with
  | _ n ih =>
    rw [natChars_eq]
    by_cases h : n < 10
    · simp only [if_pos h, List.mem_singleton]
      rintro c rfl
      exact digitChar_isDigit n h
    · simp only [if_neg h, List.mem_append, List.mem_singleton]
      rintro c (hc | rfl)
      · exact ih (n / 10) (Nat.div_lt_self (by omega) (by omega)) c hc
      · exact digitChar_isDigit _ (Nat.mod_lt n (by omega))

theorem natChars_foldl (n : Nat) : ∀ a : Nat,
    (natChars n).foldl (fun x c => 10 * x + digVal c) a
      = a * 10 ^ (natChars n).length + n := by
  induction n using Nat.strong_induction_on with
  | _ n ih =>
    intro a
    rw [natChars_eq]
    by_cases h : n < 10
    · simp only [if_pos h, List.foldl_cons, List.foldl_nil, List.length_singleton,
        pow_one, digVal_digitChar n h]
      ring
    · simp only [if_neg h, List.foldl_append, List.length_append, List.foldl_cons,
        List.foldl_nil, List.length_singleton]
      rw [ih (n / 10) (Nat.div_lt_self (by omega) (by omega)),
        digVal_digitChar _ (Nat.mod_lt n (by omega)), pow_succ, ← Nat.mul_assoc]
      generalize a * 10 ^ (natChars (n / 10)).length = s
      omega

theorem strToNat_natChars (n : Nat) : strToNat (natChars n) = n := by
  have h := natChars_foldl n 0
  simpa [strToNat] using h

theorem isDigit_not_pySpace (c : Char) (h : c.isDigit = true) : isPySpace c = false := by
  by_contra hb
  simp only [Bool.not_eq_false] at hb
  unfold isPySpace at hb
  simp only [decide_eq_true_eq] at hb
  rcases hb with rfl | rfl | rfl | rfl | rfl | rfl <;> exact absurd h (by decide)

theorem dropWhile_eq_self_of_head {p : Char → Bool} {s : List Char}
    (h : ∀ c, s.head? = some c → p c = false) : s.dropWhile p = s := by
  cases s with
  | nil => rfl
  | cons c t =>
    have hc := h c rfl
    simp [List.dropWhile_cons, hc]

theorem head?_append_or (l r : List Char) : (l ++ r).head? = l.head?.or r.head? := by
  cases l <;> rfl

theorem takeWhile_append_not {p : Char → Bool} (l : List Char) (k : Char) (r : List Char)
    (hl : ∀ c ∈ l, p c = true) (hk : p k = false) :
    (l ++ k :: r).takeWhile p = l := by
  induction l with
  | nil => simp [List.takeWhile_cons, hk]
  | cons a t ih =>
    have ha := hl a (List.mem_cons_self a t)
    simp [List.takeWhile_cons, ha, ih (fun c hc => hl c (List.mem_cons_of_mem a hc))]

theorem dropWhile_append_not {p : Char → Bool} (l : List Char) (k : Char) (r : List Char)
    (hl : ∀ c ∈ l, p c = true) (hk : p k = false) :
    (l ++ k :: r).dropWhile p = k :: r := by
  induction l with
  | nil => simp [List.dropWhile_cons, hk]
  | cons a t ih =>
    have ha := hl a (List.mem_cons_self a t)
    simp [List.dropWhile_cons, ha, ih (fun c hc => hl c (List.mem_cons_of_mem a hc))]

theorem kind_not_digit {k : Char} (hk : k ∈ kindChars) : k.isDigit = false := by
  simp only [kindChars, List.mem_cons, List.not_mem_nil, or_false] at hk
  rcases hk with rfl | rfl | rfl | rfl <;> decide

theorem kind_not_space {k : Char} (hk : k ∈ kindChars) : isPySpace k = false := by
  simp only [kindChars, List.mem_cons, List.not_mem_nil, or_false] at hk
  rcases hk with rfl | rfl | rfl | rfl <;> decide

/-- C2 (amended): the round trip holds for every positive token, kind byte and
payload whose text contains no newline and does not end in whitespace; the
strip step of the parser removes trailing whitespace of the payload and the
dot of the line regex refuses interior newlines, so those payloads are exactly
the ones the format can carry. -/
theorem wire_roundtrip_of_clean_payload (t : Nat) (k : Char) (p : List Char)
    (ht : 0 < t) (hk : k ∈ kindChars) (hnl : p.contains '\n' = false)
    (hws : ∀ c, p.getLast? = some c → isPySpace c = false) :
    parse_mi_output (formatMi t k p) = some (.tokenized t k p) := by
  unfold formatMi
  obtain ⟨c0, l0, hc⟩ := List.exists_cons_of_ne_nil (natChars_ne_nil t)
  have hc0d : c0.isDigit = true :=
    natChars_all_digits t c0 (by rw [hc]; exact List.mem_cons_self _ _)
  have hhead : (natChars t ++ k :: p).head? = some c0 := by
    rw [hc]
    rfl
  have hfront : (natChars t ++ k :: p).dropWhile isPySpace = natChars t ++ k :: p :=
    dropWhile_eq_self_of_head (fun c hcc => by
      rw [hhead] at hcc
      injection hcc with h
      subst h
      exact isDigit_not_pySpace _ hc0d)
  have hrevhead : ∀ c, (natChars t ++ k :: p).reverse.head? = some c →
      isPySpace c = false := by
    intro c hcc
    have hr : (natChars t ++ k :: p).reverse = p.reverse ++ k :: (natChars t).reverse := by
      simp
    rw [hr, head?_append_or] at hcc
    rcases hp : p.reverse.head? with _ | c'
    · rw [hp] at hcc
      simp only [Option.or] at hcc
      injection hcc with h
      subst h
      exact kind_not_space hk
    · rw [hp] at hcc
      simp only [Option.or] at hcc
      injection hcc with h
      subst h
      have hlast : p.getLast? = some c' := by rw [← List.head?_reverse]; exact hp
      exact hws c' hlast
  have hstrip : pyStrip (natChars t ++ k :: p) = natChars t ++ k :: p := by
    unfold pyStrip
    rw [hfront, dropWhile_eq_self_of_head hrevhead, List.reverse_reverse]
  have hsne : natChars t ++ k :: p ≠ [] := by
    rw [hc]
    simp
  have hsnp : natChars t ++ k :: p ≠ gdbPromptChars := by
    intro he
    have h2 : (natChars t ++ k :: p).head? = some '(' := by rw [he]; rfl
    rw [hhead] at h2
    injection h2 with h3
    rw [h3] at hc0d
    exact absurd hc0d (by decide)
  have hkd : k.isDigit = false := kind_not_digit hk
  have htw : (natChars t ++ k :: p).takeWhile Char.isDigit = natChars t :=
    takeWhile_append_not _ _ _ (natChars_all_digits t) hkd
  have hdw : (natChars t ++ k :: p).dropWhile Char.isDigit = k :: p :=
    dropWhile_append_not _ _ _ (natChars_all_digits t) hkd
  unfold parse_mi_output
  rw [hstrip, if_neg hsne, if_neg hsnp, hdw]
  simp only [htw]
  rw [if_pos ⟨natChars_ne_nil t, hk, hnl⟩, strToNat_natChars]

/-- C2 (witness): the amended round trip evaluated at token 3, kind caret,
payload done. -/
theorem wire_roundtrip_witness :
    0 < 3 ∧ parse_mi_output (formatMi 3 '^' ("done".data)) =
      some (.tokenized 3 '^' ("done".data)) :=
  ⟨by decide,
    wire_roundtrip_of_clean_payload 3 '^' ("done".data) (by decide) (by decide)
      (by decide)
      (fun c hc => by injection hc with h; rw [← h]; decide)⟩

/-- C2 (counterexample): a payload consisting of one space is stripped away by
the parser, so the round trip as claimed over every payload string fails. -/
theorem wire_roundtrip_fails_on_trailing_space :
    parse_mi_output (formatMi 1 '^' (" ".data)) ≠
      some (.tokenized 1 '^' (" ".data)) := by
  have h1 : natChars 1 = ['1'] := by
    rw [natChars_eq, if_pos (by decide : (1 : Nat) < 10)]
    decide
  simp only [formatMi, h1]
  decide

/-- C4: a non-tokenized line carrying an exit-family reason always drives the
state to exited with file, line and function cleared, even when the line also
holds the substring stopped, because the exit check runs before the stopped
branch of the dispatcher. -/
theorem exited_reason_overrides_stopped (st : DebugState) (out : List Char)
    (hparse : parse_mi_output out = none)
    (hexit : containsExitReason out = true) :
    process_output st out = ⟨.exited, none, none, none⟩ := by
  simp [process_output, hparse, hexit]

/-- C4 (witness): the exited theorem evaluated on a stop notification with the
exited-normally reason. -/
theorem exited_reason_witness :
    parse_mi_output ("*stopped,reason=\"exited-normally\"".data) = none ∧
    containsExitReason ("*stopped,reason=\"exited-normally\"".data) = true ∧
    process_output ⟨.stopped, some ("t.c".data), some 5, some ("main".data)⟩
        ("*stopped,reason=\"exited-normally\"".data) = ⟨.exited, none, none, none⟩ :=
  ⟨by decide, by decide,
    exited_reason_overrides_stopped _ _ (by decide) (by decide)⟩

/-- C3 (counterexample): a stop notification without a file field leaves the
file of the previous stop in place instead of clearing it; the claimed
clear-on-entry does not happen. -/
theorem stopped_entry_keeps_previous_file :
    (process_output ⟨.stopped, some ("old.c".data), some 3, some ("f".data)⟩
        ("*stopped,reason=\"breakpoint-hit\",line=\"7\"".data)).file =
      some ("old.c".data) ∧
    searchQuotedVal fileKeyQ
        ("*stopped,reason=\"breakpoint-hit\",line=\"7\"".data) = none ∧
    some ("old.c".data) ≠ (none : Option (List Char)) := by
  refine ⟨by decide, by decide, by decide⟩

/-- C3 (amended): on a transition into stopped the state machine does not clear
the location; each of file, line and function is overwritten when its field is
found in the notification and keeps its previous value when the field is
absent. -/
theorem stopped_entry_updates_only_present_fields (st : DebugState) (out : List Char)
    (hparse : parse_mi_output out = none)
    (hexit : containsExitReason out = false)
    (hstop : hasInfix stoppedMarker out = true) :
    (process_output st out).state = .stopped ∧
    ((∀ v, searchQuotedVal fileKeyQ out = some v → (process_output st out).file = some v) ∧
     (searchQuotedVal fileKeyQ out = none → (process_output st out).file = st.file)) ∧
    ((∀ v, searchDigitsVal lineKeyQ out = some v →
        (process_output st out).line = some (strToNat v)) ∧
     (searchDigitsVal lineKeyQ out = none → (process_output st out).line = st.line)) ∧
    ((∀ v, searchQuotedVal funcKeyQ out = some v →
        (process_output st out).function = some v) ∧
     (searchQuotedVal funcKeyQ out = none → (process_output st out).function = st.function)) := by
  have hpo : process_output st out = handle_stopped_state st out := by
    simp [process_output, hparse, hexit, hstop]
  rw [hpo]
  unfold handle_stopped_state
  rw [if_neg (by simp [hexit])]
  refine ⟨rfl, ⟨?_, ?_⟩, ⟨?_, ?_⟩, ⟨?_, ?_⟩⟩
  · intro v hv
    simp [hv]
  · intro hv
    simp [hv]
  · intro v hv
    simp [hv]
  · intro hv
    simp [hv]
  · intro v hv
    simp [hv]
  · intro hv
    simp [hv]

/-- C3 (witness): the amended theorem evaluated on a stop notification carrying
only func and line, against a state remembering a previous file. -/
theorem stopped_update_witness :
    (process_output ⟨.stopped, some ("old.c".data), some 3, none⟩
        ("*stopped,func=\"main\",line=\"7\"".data)).state = .stopped ∧
    (process_output ⟨.stopped, some ("old.c".data), some 3, none⟩
        ("*stopped,func=\"main\",line=\"7\"".data)).file = some ("old.c".data) := by
  refine ⟨(stopped_entry_updates_only_present_fields _ _ (by decide) (by decide)
    (by decide)).1, ?_⟩
  have h := (stopped_entry_updates_only_present_fields
    ⟨.stopped, some ("old.c".data), some 3, none⟩
    ("*stopped,func=\"main\",line=\"7\"".data) (by decide) (by decide) (by decide)).2.1.2
  exact h (by decide)

/-- C1: on every exit path of the synchronous command past the liveness check —
reply delivered, write failure, or timeout — the token allocated for the call
has been removed from the pending-request mapping when the call returns. -/
theorem send_sync_deregisters_token (st : SessionState) (cmd : List Char)
    (writeOk : Bool) (reply : Option (Char × List Char))
    (h : processAlive st = true) :
    (st.tokenCounter + 1) ∉
      (send_mi_command_sync st cmd writeOk reply).2.1.responseQueues := by
  have hrm : ∀ qs : List Nat,
      (st.tokenCounter + 1) ∉ removeToken qs (st.tokenCounter + 1) := by
    intro qs hmem
    unfold removeToken at hmem
    simp at hmem
  unfold send_mi_command_sync
  rw [if_pos h]
  cases writeOk <;> rcases reply with _ | r
  · exact hrm _
  · exact hrm _
  · exact hrm _
  · exact hrm _

/-- C1 (witness): the deregistration theorem evaluated on a live session whose
counter stands at seven. -/
theorem send_sync_deregisters_token_witness :
    processAlive ⟨some true, 7, [], ⟨.connected, none, none, none⟩⟩ = true ∧
    (7 + 1) ∉ (send_mi_command_sync ⟨some true, 7, [], ⟨.connected, none, none, none⟩⟩
      ("-exec-run".data) true (some ('^', "done".data))).2.1.responseQueues :=
  ⟨by decide,
    send_sync_deregisters_token ⟨some true, 7, [], ⟨.connected, none, none, none⟩⟩
      ("-exec-run".data) true (some ('^', "done".data)) (by decide)⟩

/-- C6: with no live backend process the synchronous command fails at once with
the connection error, the session state is untouched — no token allocated, no
request registered — nothing is written, and the connection error is a
different kind from the timeout error. -/
theorem send_sync_rejects_without_live_process (st : SessionState) (cmd : List Char)
    (writeOk : Bool) (reply : Option (Char × List Char))
    (h : processAlive st = false) :
    send_mi_command_sync st cmd writeOk reply = (.error .connectionError, st, []) ∧
    GDBErr.connectionError ≠ GDBErr.timeoutError := by
  refine ⟨?_, by decide⟩
  unfold send_mi_command_sync
  rw [if_neg (by simp [h])]

/-- C6 (witness): the rejection theorem evaluated on a session without a
process handle. -/
theorem send_sync_rejects_witness :
    processAlive ⟨none, 4, [2], ⟨.disconnected, none, none, none⟩⟩ = false ∧
    send_mi_command_sync ⟨none, 4, [2], ⟨.disconnected, none, none, none⟩⟩
        ("-exec-run".data) true none =
      (.error .connectionError, ⟨none, 4, [2], ⟨.disconnected, none, none, none⟩⟩, []) ∧
    GDBErr.connectionError ≠ GDBErr.timeoutError :=
  ⟨by decide,
    send_sync_rejects_without_live_process ⟨none, 4, [2], ⟨.disconnected, none, none, none⟩⟩
      ("-exec-run".data) true none (by decide)⟩

/-- C7: shutdown — a total function, so it cannot raise — always ends with the
process handle cleared and the session state disconnected, whichever state it
starts from and whether or not the graceful path fails. -/
theorem shutdown_always_clears_process_and_disconnects (st : SessionState)
    (gracefulFails : Bool) :
    (shutdown st gracefulFails).gdbProcess = none ∧
    (shutdown st gracefulFails).debug.state = .disconnected := by
  unfold shutdown
  rcases hg : st.gdbProcess with _ | b <;> cases gracefulFails <;> simp [hg]

/-- Counter value after repeated allocator calls. -/
theorem nthCallState_counter (st : SessionState) (n : Nat) :
    (nthCallState st n).tokenCounter = st.tokenCounter + n := by
  induction n with
  | zero => rfl
  | succ n ih => simp [nthCallState, get_next_token, ih, Nat.add_assoc]

/-- C8: the token allocator is strictly monotone over the calls of one session:
a later call always returns a strictly larger token, so no token is handed out
twice. -/
theorem token_allocator_strictly_monotone (st : SessionState) (i j : Nat)
    (h : i < j) : tokenAt st i < tokenAt st j := by
  have hc : ∀ n, tokenAt st n = st.tokenCounter + n + 1 := by
    intro n
    unfold tokenAt get_next_token
    simp [nthCallState_counter]
  rw [hc i, hc j]
  omega

/-- C8 (witness): monotonicity applied to the first and third call of a fresh
session. -/
theorem token_allocator_witness :
    0 < 2 ∧ tokenAt ⟨some true, 0, [], ⟨.connected, none, none, none⟩⟩ 0 <
      tokenAt ⟨some true, 0, [], ⟨.connected, none, none, none⟩⟩ 2 :=
  ⟨by decide,
    token_allocator_strictly_monotone ⟨some true, 0, [], ⟨.connected, none, none, none⟩⟩
      0 2 (by decide)⟩

/-- C5: the variables payload whose type field holds nested brackets decodes to
exactly one record, and the type field of that record is the full string
`int [5]`, not truncated at the inner bracket. -/
theorem nested_bracket_type_decodes_exactly :
    parse_variables_response
        ("done,variables=[\x7bname=\"a\",value=\"1\",type=\"int [5]\"\x7d]".data) =
      [[(nameKey, "a".data), (valueKey, "1".data), (typeKey, "int [5]".data)]] ∧
    aget [(nameKey, "a".data), (valueKey, "1".data), (typeKey, "int [5]".data)]
        typeKey = some ("int [5]".data) :=
  ⟨by decide, by decide⟩

/-- C9: the three-byte reply decodes to exactly the bytes 0x41 0x42 0x43; a
malformed entry among valid ones is skipped without disturbing the valid bytes
or their order, both on the concrete reply and for every surrounding entry
list. -/
theorem read_memory_decodes_hex_list_skipping_malformed
    (pre post : List (List Char)) (bad : List Char)
    (hbad : decodeHexEntry bad = none) :
    read_memory_decode '^'
        ("done,memory=[\x7baddr=\"0x1000\",data=[\"0x41\",\"0x42\",\"0x43\"]\x7d]".data) =
      some [65, 66, 67] ∧
    read_memory_decode '^'
        ("done,memory=[\x7baddr=\"0x1000\",data=[\"0x41\",\"0xZZ\",\"0x43\"]\x7d]".data) =
      some [65, 67] ∧
    (pre ++ bad :: post).filterMap decodeHexEntry =
      (pre ++ post).filterMap decodeHexEntry := by
  refine ⟨by decide, by decide, ?_⟩
  simp [List.filterMap_append, List.filterMap_cons, hbad]

/-- C9 (witness): the skip property applied to a malformed entry between two
valid bytes. -/
theorem read_memory_witness :
    decodeHexEntry ("0xZZ".data) = none ∧
    (["0x41".data] ++ ("0xZZ".data) :: ["0x43".data]).filterMap decodeHexEntry =
      (["0x41".data] ++ ["0x43".data]).filterMap decodeHexEntry :=
  ⟨by decide,
    (read_memory_decodes_hex_list_skipping_malformed ["0x41".data] ["0x43".data]
      ("0xZZ".data) (by decide)).2.2⟩

/-! Association-list lemmas for the dictionary embedding used by the merge. -/

theorem aget_aset_self {α : Type} (d : List (List Char × α)) (k : List Char) (v : α) :
    aget (aset d k v) k = some v := by
  induction d with
  | nil => simp [aset, aget]
  | cons p rest ih =>
    by_cases h : p.1 = k
    · simp [aset, h, aget]
    · simp [aset, h, aget, ih]

theorem aget_aset_ne {α : Type} (d : List (List Char × α)) (k k' : List Char) (v : α)
    (h : k' ≠ k) : aget (aset d k v) k' = aget d k' := by
  have h' : ¬(k = k') := fun he => h he.symm
  induction d with
  | nil => simp [aset, aget, h']
  | cons p rest ih =>
    by_cases hp : p.1 = k
    · have hp' : ¬(p.1 = k') := by rw [hp]; exact h'
      simp [aset, hp, aget, hp', h']
    · by_cases hq : p.1 = k'
      · simp [aset, hp, aget, hq, h, h']
      · simp [aset, hp, aget, hq, ih]

theorem mem_aset {α : Type} (d : List (List Char × α)) (k : List Char) (v : α)
    (p : List Char × α) (hp : p ∈ aset d k v) : p = (k, v) ∨ p ∈ d := by
  induction d with
  | nil => simpa [aset] using hp
  | cons q rest ih =>
    by_cases hq : q.1 = k
    · simp only [aset, if_pos hq, List.mem_cons] at hp
      rcases hp with h | h
      · exact Or.inl h
      · exact Or.inr (List.mem_cons_of_mem _ h)
    · simp only [aset, if_neg hq, List.mem_cons] at hp
      rcases hp with h | h
      · exact Or.inr (by rw [h]; exact List.mem_cons_self _ _)
      · rcases ih h with h' | h'
        · exact Or.inl h'
        · exact Or.inr (List.mem_cons_of_mem _ h')

theorem keys_aset_mem {α : Type} (d : List (List Char × α)) (k : List Char) (v : α)
    (h : (aget d k).isSome) : (aset d k v).map Prod.fst = d.map Prod.fst := by
  induction d with
  | nil => simp [aget] at h
  | cons p rest ih =>
    by_cases hp : p.1 = k
    · simp [aset, hp]
    · have h' : (aget rest k).isSome := by simpa [aget, hp] using h
      simp [aset, hp, ih h']

theorem aset_of_not_mem {α : Type} (d : List (List Char × α)) (k : List Char) (v : α)
    (h : aget d k = none) : aset d k v = d ++ [(k, v)] := by
  induction d with
  | nil => simp [aset]
  | cons p rest ih =>
    have hp : p.1 ≠ k := by
      intro he
      simp [aget, he] at h
    have h' : aget rest k = none := by simpa [aget, hp] using h
    simp [aset, hp, ih h']

theorem aget_eq_none_of_not_mem_keys {α : Type} (d : List (List Char × α))
    (k : List Char) (h : k ∉ d.map Prod.fst) : aget d k = none := by
  induction d with
  | nil => rfl
  | cons p rest ih =>
    simp only [List.map_cons, List.mem_cons, not_or] at h
    have hp : p.1 ≠ k := fun he => h.1 he.symm
    simp [aget, hp, ih h.2]

theorem aget_isSome_of_mem_keys {α : Type} (d : List (List Char × α))
    (k : List Char) (h : k ∈ d.map Prod.fst) : (aget d k).isSome := by
  induction d with
  | nil => simp at h
  | cons p rest ih =>
    by_cases hp : p.1 = k
    · simp [aget, hp]
    · simp only [List.map_cons, List.mem_cons] at h
      rcases h with h | h
      · exact absurd h.symm hp
      · simp [aget, hp, ih h]

theorem aget_mem {α : Type} (d : List (List Char × α)) (k : List Char) {v : α}
    (h : aget d k = some v) : (k, v) ∈ d := by
  induction d with
  | nil => simp [aget] at h
  | cons p rest ih =>
    rcases p with ⟨pk, pv⟩
    by_cases hp : pk = k
    · simp only [aget, if_pos hp, Option.some.injEq] at h
      subst hp
      subst h
      exact List.mem_cons_self _ _
    · simp only [aget, if_neg hp] at h
      exact List.mem_cons_of_mem _ (ih h)

/-! Lemmas about the two-pass merge of get_variables. -/

theorem updWV_fold_preserves (key : List Char)
    (hkey : key = nameKey ∨ key = valueKey ∨ key = typeKey) :
    ∀ (ps : List (List Char × List Char)) (b : VarDict),
      aget (ps.foldl (fun b p =>
        if p.1 = nameKey ∨ p.1 = valueKey ∨ p.1 = typeKey then b
        else aset b p.1 p.2) b) key = aget b key := by
  intro ps
  induction ps with
  | nil =>
    intro b
    rfl
  | cons p rest ih =>
    intro b
    rw [List.foldl_cons, ih]
    by_cases hp : p.1 = nameKey ∨ p.1 = valueKey ∨ p.1 = typeKey
    · rw [if_pos hp]
    · rw [if_neg hp]
      refine aget_aset_ne _ _ _ _ ?_
      intro he
      rcases hkey with rfl | rfl | rfl
      · exact hp (Or.inl he.symm)
      · exact hp (Or.inr (Or.inl he.symm))
      · exact hp (Or.inr (Or.inr he.symm))

theorem updateWithValue_name (base vv : VarDict) :
    aget (updateWithValue base vv) nameKey = aget base nameKey := by
  unfold updateWithValue
  rw [updWV_fold_preserves nameKey (Or.inl rfl)]
  rcases h : aget vv valueKey with _ | v
  · rfl
  · exact aget_aset_ne _ _ _ _ (by decide)

theorem updateWithValue_value (base vv : VarDict) {val : List Char}
    (h : aget vv valueKey = some val) :
    aget (updateWithValue base vv) valueKey = some val := by
  unfold updateWithValue
  rw [updWV_fold_preserves valueKey (Or.inr (Or.inl rfl)), h, aget_aset_self]

theorem apply_all_values_eq_none (m : List (List Char × VarDict)) (vv : VarDict)
    (h : varName vv = none) : apply_all_values m vv = m := by
  simp [apply_all_values, h]

theorem apply_all_values_eq_miss (m : List (List Char × VarDict)) (vv : VarDict)
    (n : List Char) (h1 : varName vv = some n) (h2 : aget m n = none) :
    apply_all_values m vv = m := by
  simp [apply_all_values, h1, h2]

theorem apply_all_values_eq_hit (m : List (List Char × VarDict)) (vv : VarDict)
    (n : List Char) (base : VarDict) (h1 : varName vv = some n)
    (h2 : aget m n = some base) :
    apply_all_values m vv = aset m n (updateWithValue base vv) := by
  simp [apply_all_values, h1, h2]

theorem apply_all_values_keys (m : List (List Char × VarDict)) (vv : VarDict) :
    (apply_all_values m vv).map Prod.fst = m.map Prod.fst := by
  rcases h1 : varName vv with _ | n
  · rw [apply_all_values_eq_none m vv h1]
  · rcases h2 : aget m n with _ | base
    · rw [apply_all_values_eq_miss m vv n h1 h2]
    · rw [apply_all_values_eq_hit m vv n base h1 h2]
      exact keys_aset_mem m n _ (by simp [h2])

theorem foldl_apply_keys (vs : List VarDict) (m : List (List Char × VarDict)) :
    (vs.foldl apply_all_values m).map Prod.fst = m.map Prod.fst := by
  induction vs generalizing m with
  | nil => rfl
  | cons vv rest ih => rw [List.foldl_cons, ih, apply_all_values_keys]

theorem apply_all_values_name_inv (m : List (List Char × VarDict)) (vv : VarDict)
    (hinv : ∀ p ∈ m, varName p.2 = some p.1) :
    ∀ p ∈ apply_all_values m vv, varName p.2 = some p.1 := by
  rcases h1 : varName vv with _ | n
  · rw [apply_all_values_eq_none m vv h1]
    exact hinv
  · rcases h2 : aget m n with _ | base
    · rw [apply_all_values_eq_miss m vv n h1 h2]
      exact hinv
    · rw [apply_all_values_eq_hit m vv n base h1 h2]
      intro p hp
      rcases mem_aset _ _ _ _ hp with rfl | hpm
      · show varName (updateWithValue base vv) = some n
        rw [varName, updateWithValue_name]
        exact hinv _ (aget_mem m n h2)
      · exact hinv _ hpm

theorem foldl_apply_name_inv (vs : List VarDict) (m : List (List Char × VarDict))
    (hinv : ∀ p ∈ m, varName p.2 = some p.1) :
    ∀ p ∈ vs.foldl apply_all_values m, varName p.2 = some p.1 := by
  induction vs generalizing m with
  | nil => exact hinv
  | cons vv rest ih =>
    rw [List.foldl_cons]
    exact ih _ (apply_all_values_name_inv m vv hinv)

theorem apply_all_values_preserves_other (m : List (List Char × VarDict))
    (vv : VarDict) (n : List Char) (hne : varName vv ≠ some n) :
    aget (apply_all_values m vv) n = aget m n := by
  rcases h1 : varName vv with _ | n'
  · rw [apply_all_values_eq_none m vv h1]
  · rcases h2 : aget m n' with _ | base
    · rw [apply_all_values_eq_miss m vv n' h1 h2]
    · rw [apply_all_values_eq_hit m vv n' base h1 h2]
      refine aget_aset_ne _ _ _ _ ?_
      intro he
      exact hne (h1.trans (by rw [he]))

theorem foldl_apply_preserves_other (vs : List VarDict)
    (m : List (List Char × VarDict)) (n : List Char)
    (h : ∀ vv ∈ vs, varName vv ≠ some n) :
    aget (vs.foldl apply_all_values m) n = aget m n := by
  induction vs generalizing m with
  | nil => rfl
  | cons vv rest ih =>
    rw [List.foldl_cons, ih _ (fun u hu => h u (List.mem_cons_of_mem _ hu)),
      apply_all_values_preserves_other m vv n (h vv (List.mem_cons_self _ _))]

theorem build_var_map_from (ts : List VarDict) :
    ∀ m0 : List (List Char × VarDict),
      (∀ v ∈ ts, (varName v).isSome) →
      (∀ v ∈ ts, ∀ n, varName v = some n → n ∉ m0.map Prod.fst) →
      (ts.filterMap varName).Nodup →
      ts.foldlM (fun m v => (varName v).map (fun n => aset m n v)) m0 =
        some (m0 ++ ts.map (fun v => ((varName v).getD [], v))) := by
  induction ts with
  | nil =>
    intro m0 _ _ _
    simp
  | cons v rest ih =>
    intro m0 hsome hfresh hnd
    obtain ⟨n, hn⟩ := Option.isSome_iff_exists.mp (hsome v (List.mem_cons_self _ _))
    have hnfresh : aget m0 n = none :=
      aget_eq_none_of_not_mem_keys _ _ (hfresh v (List.mem_cons_self _ _) n hn)
    have hndrest : (rest.filterMap varName).Nodup := by
      have : (v :: rest).filterMap varName = n :: rest.filterMap varName := by
        simp [List.filterMap_cons, hn]
      rw [this] at hnd
      exact hnd.of_cons
    have hnnotin : n ∉ rest.filterMap varName := by
      have : (v :: rest).filterMap varName = n :: rest.filterMap varName := by
        simp [List.filterMap_cons, hn]
      rw [this] at hnd
      exact (List.nodup_cons.mp hnd).1
    simp only [List.foldlM_cons, hn, Option.map_some']
    rw [show ((some (aset m0 n v) >>= fun m =>
        rest.foldlM (fun m v => (varName v).map (fun n => aset m n v)) m) =
        rest.foldlM (fun m v => (varName v).map (fun n => aset m n v))
          (aset m0 n v)) from rfl]
    rw [aset_of_not_mem m0 n v hnfresh]
    rw [ih (m0 ++ [(n, v)])
      (fun u hu => hsome u (List.mem_cons_of_mem _ hu))
      (fun u hu nu hnu => by
        simp only [List.map_append, List.mem_append, List.map_cons, List.map_nil,
          List.mem_singleton, not_or]
        refine ⟨hfresh u (List.mem_cons_of_mem _ hu) nu hnu, ?_⟩
        intro he
        exact hnnotin (he ▸ List.mem_filterMap.mpr ⟨u, hu, hnu⟩))
      hndrest]
    rw [List.append_assoc]
    simp [hn]

/-- C10: the two-pass merge keeps exactly the names of the simple-values pass,
in order; an all-values record whose name did not appear in the simple-values
pass is silently dropped; and for a name present in both passes the value of
the all-values record wins.  The hypotheses say that every simple-values record
carries a name and that neither pass repeats a name. -/
theorem get_variables_merge_keeps_simple_names (ts vs : List VarDict)
    (hsome : ∀ v ∈ ts, (varName v).isSome)
    (hndt : (ts.filterMap varName).Nodup)
    (hndv : (vs.filterMap varName).Nodup) :
    ∃ out, merge_variables ts vs = some out ∧
      out.map varName = ts.map varName ∧
      (∀ vv ∈ vs, ∀ n, varName vv = some n →
        (∀ v ∈ ts, varName v ≠ some n) → ∀ r ∈ out, varName r ≠ some n) ∧
      (∀ vv ∈ vs, ∀ n val, varName vv = some n → some n ∈ ts.map varName →
        aget vv valueKey = some val →
        ∃ r ∈ out, varName r = some n ∧ aget r valueKey = some val) := by
  have hbuild := build_var_map_from ts [] hsome (by simp) hndt
  have hbm : build_var_map ts =
      some (ts.map (fun v => ((varName v).getD [], v))) := by
    unfold build_var_map
    simpa using hbuild
  have hMinv : ∀ p ∈ ts.map (fun v => ((varName v).getD [], v)),
      varName p.2 = some p.1 := by
    intro p hp
    obtain ⟨v, hv, rfl⟩ := List.mem_map.mp hp
    obtain ⟨n, hn⟩ := Option.isSome_iff_exists.mp (hsome v hv)
    simp [hn]
  have hMkeys : (ts.map (fun v => ((varName v).getD [], v))).map Prod.fst =
      ts.map (fun v => (varName v).getD []) := by
    simp
  have hfin : merge_variables ts vs =
      some ((vs.foldl apply_all_values
        (ts.map (fun v => ((varName v).getD [], v)))).map (fun p => p.2)) := by
    unfold merge_variables
    rw [hbm]
    rfl
  have hFinv := foldl_apply_name_inv vs _ hMinv
  have hFkeys := foldl_apply_keys vs (ts.map (fun v => ((varName v).getD [], v)))
  refine ⟨_, hfin, ?_, ?_, ?_⟩
  · -- names of the output are the names of the simple pass
    rw [List.map_map]
    have hptw : ∀ p ∈ vs.foldl apply_all_values
        (ts.map (fun v => ((varName v).getD [], v))),
        (varName ∘ fun p => p.2) p = (some ∘ Prod.fst) p := fun p hp => hFinv p hp
    rw [List.map_congr_left hptw]
    rw [← List.map_map, hFkeys, hMkeys, List.map_map]
    refine List.map_congr_left ?_
    intro v hv
    obtain ⟨n, hn⟩ := Option.isSome_iff_exists.mp (hsome v hv)
    simp [hn]
  · -- a name absent from the simple pass never reaches the output
    intro vv hvv n hn hnot r hr he
    have hnames : ((vs.foldl apply_all_values
        (ts.map (fun v => ((varName v).getD [], v)))).map (fun p => p.2)).map varName =
        ts.map varName := by
      rw [List.map_map]
      have hptw : ∀ p ∈ vs.foldl apply_all_values
          (ts.map (fun v => ((varName v).getD [], v))),
          (varName ∘ fun p => p.2) p = (some ∘ Prod.fst) p := fun p hp => hFinv p hp
      rw [List.map_congr_left hptw, ← List.map_map, hFkeys, hMkeys, List.map_map]
      refine List.map_congr_left ?_
      intro v hv
      obtain ⟨m, hm⟩ := Option.isSome_iff_exists.mp (hsome v hv)
      simp [hm]
    have hmem : some n ∈ ts.map varName := by
      rw [← hnames]
      exact List.mem_map.mpr ⟨r, hr, he⟩
    obtain ⟨v, hv, hveq⟩ := List.mem_map.mp hmem
    exact hnot v hv hveq
  · -- the all-values value wins for a shared name
    intro vv hvv n val hn hnmem hval
    obtain ⟨pre, post, rfl⟩ := List.append_of_mem hvv
    have hnkeys : n ∈ (ts.map (fun v => ((varName v).getD [], v))).map Prod.fst := by
      rw [hMkeys]
      obtain ⟨v, hv, hveq⟩ := List.mem_map.mp hnmem
      exact List.mem_map.mpr ⟨v, hv, by rw [hveq]; rfl⟩
    have hpk := foldl_apply_keys pre (ts.map (fun v => ((varName v).getD [], v)))
    have hsome1 : (aget (pre.foldl apply_all_values
        (ts.map (fun v => ((varName v).getD [], v)))) n).isSome := by
      refine aget_isSome_of_mem_keys _ _ ?_
      rw [hpk]
      exact hnkeys
    obtain ⟨base, hbase⟩ := Option.isSome_iff_exists.mp hsome1
    have hpostne : ∀ u ∈ post, varName u ≠ some n := by
      intro u hu he
      have hsplit : ((pre ++ vv :: post).filterMap varName) =
          pre.filterMap varName ++ n :: post.filterMap varName := by
        simp [List.filterMap_append, List.filterMap_cons, hn]
      rw [hsplit] at hndv
      have hsub : (n :: post.filterMap varName).Nodup :=
        hndv.sublist (List.sublist_append_right _ _)
      exact (List.nodup_cons.mp hsub).1 (List.mem_filterMap.mpr ⟨u, hu, he⟩)
    have happly : aget (apply_all_values (pre.foldl apply_all_values
        (ts.map (fun v => ((varName v).getD [], v)))) vv) n =
        some (updateWithValue base vv) := by
      rw [apply_all_values_eq_hit _ vv n base hn hbase, aget_aset_self]
    have hfold : aget ((pre ++ vv :: post).foldl apply_all_values
        (ts.map (fun v => ((varName v).getD [], v)))) n =
        some (updateWithValue base vv) := by
      rw [List.foldl_append, List.foldl_cons,
        foldl_apply_preserves_other post _ n hpostne, happly]
    refine ⟨updateWithValue base vv, ?_, ?_, ?_⟩
    · exact List.mem_map.mpr ⟨(n, updateWithValue base vv), aget_mem _ _ hfold, rfl⟩
    · have hbinv : varName base = some n := by
        have := foldl_apply_name_inv pre _ hMinv _ (aget_mem _ _ hbase)
        exact this
      show varName (updateWithValue base vv) = some n
      rw [varName, updateWithValue_name]
      exact hbinv
    · exact updateWithValue_value base vv hval

/-- C10 (witness): the merge theorem evaluated on one simple-values record and
two all-values records, one of which carries a name unknown to the first
pass. -/
theorem get_variables_merge_witness :
    ∃ out, merge_variables [[(nameKey, "a".data), (typeKey, "int".data)]]
        [[(nameKey, "a".data), (valueKey, "5".data)],
         [(nameKey, "b".data), (valueKey, "9".data)]] = some out ∧
      out.map varName = [[(nameKey, "a".data), (typeKey, "int".data)]].map varName ∧
      (∀ vv ∈ [[(nameKey, "a".data), (valueKey, "5".data)],
          [(nameKey, "b".data), (valueKey, "9".data)]], ∀ n, varName vv = some n →
        (∀ v ∈ [[(nameKey, "a".data), (typeKey, "int".data)]], varName v ≠ some n) →
        ∀ r ∈ out, varName r ≠ some n) ∧
      (∀ vv ∈ [[(nameKey, "a".data), (valueKey, "5".data)],
          [(nameKey, "b".data), (valueKey, "9".data)]], ∀ n val,
        varName vv = some n →
        some n ∈ [[(nameKey, "a".data), (typeKey, "int".data)]].map varName →
        aget vv valueKey = some val →
        ∃ r ∈ out, varName r = some n ∧ aget r valueKey = some val) :=
  get_variables_merge_keeps_simple_names
    [[(nameKey, "a".data), (typeKey, "int".data)]]
    [[(nameKey, "a".data), (valueKey, "5".data)],
     [(nameKey, "b".data), (valueKey, "9".data)]]
    (by decide) (by decide) (by decide)

end DDDClone
